import Mathlib

/-
Shallow embedding of the core record-matching and deduplication logic of the
google-sheet-utils repository: the text normalizer, domain extractor, domain
classifier, similarity scorer and record matcher of
scripts/flag_suppliers_in_exclusion_list.py, and the deduplicating merger of
scripts/move_from_queue_to_exclusion_list.py.  Strings are modelled by Lean
String (lists of characters) with ASCII semantics for the character classes
used by the scripts' regular expressions.
-/

/-- Characters matched by the regex class backslash-w with ASCII semantics:
letters (codes 65-90 and 97-122), digits (codes 48-57) and the underscore
(code 95). -/
def isWordChar (c : Char) : Bool :=
  decide ((48 ≤ c.toNat ∧ c.toNat ≤ 57) ∨ (65 ≤ c.toNat ∧ c.toNat ≤ 90) ∨
          (97 ≤ c.toNat ∧ c.toNat ≤ 122) ∨ c.toNat = 95)

/-- Characters matched by the regex class backslash-s (ASCII): space (32),
tab (9), newline (10), carriage return (13), vertical tab (11) and form feed
(12); this is also the set stripped by Python str.strip(). -/
def isSpaceChar (c : Char) : Bool :=
  decide (c.toNat = 32 ∨ c.toNat = 9 ∨ c.toNat = 10 ∨ c.toNat = 13 ∨
          c.toNat = 11 ∨ c.toNat = 12)

/-- Helper for rstripChars: prepend a character to an already right-stripped
tail, dropping the character when it is whitespace standing at the end. -/
def rstripAux (c : Char) : List Char → List Char
  | [] => if isSpaceChar c then [] else [c]
  | d :: ds => c :: d :: ds

/-- Removal of trailing whitespace characters, the right half of str.strip(). -/
def rstripChars : List Char → List Char
  | [] => []
  | c :: cs => rstripAux c (rstripChars cs)

/-- Python str.strip(): drop leading and trailing whitespace characters. -/
def stripChars (cs : List Char) : List Char := rstripChars (cs.dropWhile isSpaceChar)

/-- Python str.strip() on a String. -/
def pyStrip (s : String) : String := String.mk (stripChars s.data)

/-- Embedding of re.sub applied with pattern backslash-s+ and replacement " ":
every maximal run of whitespace characters becomes a single space (only the
last character of each whitespace run emits the space). -/
def collapseWs : List Char → List Char
  | [] => []
  | [c] => if isSpaceChar c then [' '] else [c]
  | c :: d :: cs =>
    if isSpaceChar c then
      (if isSpaceChar d then collapseWs (d :: cs) else ' ' :: collapseWs (d :: cs))
    else c :: collapseWs (d :: cs)

/-- The legal-entity suffix tokens removed by normalize_text. -/
def suffixTokens : List (List Char) :=
  [("pty").data, ("ltd").data, ("limited").data, ("llc").data, ("inc").data,
   ("incorporated").data, ("corp").data, ("corporation").data]

/-- Emit a completed maximal word-character run: a run equal to one of the
suffix tokens is deleted, any other run is kept. -/
def flushRun (r : List Char) : List Char :=
  if suffixTokens.contains r then [] else r

/-- Worker for removeSuffixTokens: walks the text left to right keeping the
current maximal word-character run (reversed) in acc; at each non-word
character and at the end the finished run is flushed. -/
def remSufGo : List Char → List Char → List Char
  | [], acc => flushRun acc.reverse
  | c :: cs, acc =>
    if isWordChar c then remSufGo cs (c :: acc)
    else flushRun acc.reverse ++ c :: remSufGo cs []

/-- Embedding of the re.sub call deleting word-boundary-delimited occurrences
of pty, ltd, limited, llc, inc, incorporated, corp and corporation.  Every
alternative consists of word characters only and is anchored by word
boundaries on both sides, so a regex match is exactly a maximal
word-character run equal to one of the tokens; those runs are deleted and
every other character is kept. -/
def removeSuffixTokens (cs : List Char) : List Char := remSufGo cs []

/-- The maximal word-character runs of a text, collected left to right with
the current run (reversed) as accumulator; used to analyse
removeSuffixTokens, whose regex matches are exactly such runs. -/
def wordsGo : List Char → List Char → List (List Char)
  | [], acc => if acc = [] then [] else [acc.reverse]
  | c :: cs, acc =>
    if isWordChar c then wordsGo cs (c :: acc)
    else if acc = [] then wordsGo cs [] else acc.reverse :: wordsGo cs []

/-- The maximal word-character runs of a text. -/
def wordRuns (cs : List Char) : List (List Char) := wordsGo cs []

/-- Two adjacent characters are not both whitespace; collapseWs establishes
this for every adjacent pair of its output. -/
def spacedApart (a b : Char) : Prop := ¬(isSpaceChar a = true ∧ isSpaceChar b = true)

/-- Embedding of re.sub deleting the class complement of word and whitespace
characters: keep exactly the word and whitespace characters. -/
def stripSpecials (cs : List Char) : List Char :=
  cs.filter (fun c => isWordChar c || isSpaceChar c)

/-- Python str.lower() with ASCII semantics, character by character. -/
def lowerStr (cs : List Char) : List Char := cs.map Char.toLower

/-- Embedding of normalize_text (flag_suppliers_in_exclusion_list.py,
lines 136-147): empty input stays empty; otherwise lowercase, delete
legal-entity suffix tokens, delete characters that are neither word nor
whitespace, collapse whitespace runs to one space, and strip the ends. -/
def normalize_text (text : String) : String :=
  if text = "" then ""
  else String.mk (stripChars (collapseWs (stripSpecials (removeSuffixTokens (lowerStr text.data)))))

/-- Python str.split with a one-character separator: the list of pieces
between occurrences of the separator, always non-empty. -/
def splitOnChar (sep : Char) : List Char → List (List Char)
  | [] => [[]]
  | c :: cs =>
    match splitOnChar sep cs with
    | [] => [[]]
    | p :: ps => if c = sep then [] :: p :: ps else (c :: p) :: ps

/-- Embedding of extract_domain_from_email (lines 149-156): the piece after
the first at-sign, lowercased; the empty string when the input is empty or
has no at-sign (the IndexError branch). -/
def extract_domain_from_email (email : String) : String :=
  if email = "" then ""
  else
    match splitOnChar ('@') email.data with
    | _ :: d :: _ => String.mk (lowerStr d)
    | _ => ""

/-- Embedding of extract_domain_from_website (lines 158-175): lowercase,
strip an http:// or https:// scheme and a leading www., cut at the first
slash and at the first colon, then strip whitespace. -/
def extract_domain_from_website (website : String) : String :=
  if website = "" then ""
  else
    let d0 := lowerStr website.data
    let d1 := if (("https://").data).isPrefixOf d0 then d0.drop 8
              else if (("http://").data).isPrefixOf d0 then d0.drop 7 else d0
    let d2 := if (("www.").data).isPrefixOf d1 then d1.drop 4 else d1
    let d3 := d2.takeWhile (fun c => c != '/')
    let d4 := d3.takeWhile (fun c => c != ':')
    String.mk (stripChars d4)

/-- The common email provider base names (lines 45-78). -/
def COMMON_EMAIL_PROVIDER_BASES : List String :=
  ["gmail", "yahoo", "hotmail", "outlook", "live", "msn", "aol", "icloud",
   "me.com", "mac.com", "mail", "comcast", "verizon", "att", "protonmail",
   "zoho", "gmx", "mailinator", "yandex", "sbcglobal", "cox", "earthlink",
   "rocketmail", "mindspring", "fastmail", "rediffmail", "btinternet", "naver",
   "qq.com", "126.com", "163.com", "bellsouth"]

/-- The exact common domains (lines 81-84). -/
def EXACT_COMMON_DOMAINS : List String := ["pm.me", "ymail.com"]

/-- Embedding of is_proprietary_domain (lines 177-204): empty domains and
common-provider domains are not proprietary; the first dot-separated label is
compared against the base names, and additionally any base name followed by a
dot is tested as a prefix of the whole domain. -/
def is_proprietary_domain (domain : String) : Bool :=
  if domain = "" then false
  else
    let d := String.mk (lowerStr domain.data)
    if EXACT_COMMON_DOMAINS.contains d then false
    else if (match splitOnChar ('.') d.data with
             | p :: _ => COMMON_EMAIL_PROVIDER_BASES.contains (String.mk p)
             | [] => false) then false
    else if COMMON_EMAIL_PROVIDER_BASES.any (fun b => (b.data ++ [('.')]).isPrefixOf d.data) then false
    else true

/-- Levenshtein distance with unit costs, written with an explicit fuel
argument so that the definition is structurally recursive and computable by
the kernel; any fuel of at least len+len is enough, and levDist below always
supplies enough. -/
def levFuel : Nat → List Char → List Char → Nat
  | _, [], ys => ys.length
  | _, x :: xs, [] => (x :: xs).length
  | 0, x :: xs, y :: ys => (x :: xs).length + (y :: ys).length
  | f + 1, x :: xs, y :: ys =>
    if x = y then levFuel f xs ys
    else 1 + min (levFuel f xs ys) (min (levFuel f (x :: xs) ys) (levFuel f xs (y :: ys)))

/-- Levenshtein distance between two character lists. -/
def levDist (a b : List Char) : Nat := levFuel (a.length + b.length) a b

/-- Round half to even of the fraction p / m for naturals, matching Python
round(); callers guard the m = 0 case. -/
def pyRound (p m : Nat) : Nat :=
  let d := p / m
  let r := p % m
  if m < 2 * r then d + 1
  else if 2 * r < m then d
  else if d % 2 = 1 then d + 1 else d

/-- Modelled from the spec: the similarity scorer (fuzz.ratio) comes from the
external fuzzywuzzy library, which is not part of this repository.  Following
spec section 4.4 it is the normalized edit-distance ratio of two strings,
round(100 * (1 - editDistance / maxPossibleLength)), as a 0-100 integer with
Python rounding (half to even), together with the library convention that two
empty strings score 100. -/
def similarityScore (s1 s2 : String) : Nat :=
  let a := s1.data
  let b := s2.data
  let m := max a.length b.length
  if m = 0 then 100 else pyRound (100 * (m - levDist a b)) m

/-- Embedding of is_similar (lines 206-217): false when either raw input is
empty, otherwise both inputs are normalized and the fuzzy score is compared
against the threshold. -/
def is_similar (text1 text2 : String) (threshold : Nat) : Bool :=
  if text1 = "" ∨ text2 = "" then false
  else decide (threshold ≤ similarityScore (normalize_text text1) (normalize_text text2))

/-- Name similarity threshold (line 38). -/
def NAME_SIMILARITY_THRESHOLD : Nat := 80

/-- Email similarity threshold (line 39). -/
def EMAIL_SIMILARITY_THRESHOLD : Nat := 90

/-- Website similarity threshold (line 40). -/
def WEBSITE_SIMILARITY_THRESHOLD : Nat := 90

/-- Domain similarity threshold (line 41): exact match for domains. -/
def DOMAIN_SIMILARITY_THRESHOLD : Nat := 100

/-- A supplier/contact record with the three semantic fields that the caller
extracts from a sheet row; fields are the raw cell texts. -/
structure Record where
  name : String
  email : String
  website : String
deriving DecidableEq, Repr

/-- The seven boolean match predicates computed for one candidate/reference
pair (find_matches, lines 264-290). -/
structure MatchFlags where
  name : Bool
  email : Bool
  website : Bool
  email_domain : Bool
  website_domain : Bool
  cross_domain1 : Bool
  cross_domain2 : Bool
deriving DecidableEq, Repr

/-- The per-record data placed in a match dictionary: the stripped fields and
the two derived domains (find_matches, lines 306-319). -/
structure SideData where
  name : String
  email : String
  website : String
  email_domain : String
  website_domain : String
deriving DecidableEq, Repr

/-- A potential match found between a queue row and an exclusion-list row
(find_matches, lines 295-320). -/
structure MatchResult where
  row : Nat
  flags : MatchFlags
  queue_data : SideData
  exclusion_data : SideData
deriving DecidableEq, Repr

/-- Stripped fields and derived domains of a queue record
(find_matches, lines 238-244). -/
def mkQueueSide (r : Record) : SideData :=
  let n := pyStrip r.name
  let w := pyStrip r.website
  let e := pyStrip r.email
  ⟨n, e, w, extract_domain_from_email e, extract_domain_from_website w⟩

/-- Stripped fields and derived domains of an exclusion-list record
(find_matches, lines 255-261). -/
def mkExclSide (r : Record) : SideData :=
  let n := pyStrip r.name
  let e := pyStrip r.email
  let w := pyStrip r.website
  ⟨n, e, w, extract_domain_from_email e, extract_domain_from_website w⟩

/-- Embedding of the predicate block of find_matches (lines 264-290): the
name, email and website fuzzy comparisons plus the four domain comparisons,
each domain comparison gated on both compared domains being proprietary. -/
def computeFlags (q e : SideData) : MatchFlags :=
  let name_match := is_similar q.name e.name NAME_SIMILARITY_THRESHOLD
  let email_match := q.email != "" && e.email != "" &&
    is_similar q.email e.email EMAIL_SIMILARITY_THRESHOLD
  let website_match := q.website != "" && e.website != "" &&
    is_similar q.website e.website WEBSITE_SIMILARITY_THRESHOLD
  let email_domain_match :=
    if is_proprietary_domain q.email_domain && is_proprietary_domain e.email_domain then
      q.email_domain != "" && e.email_domain != "" &&
        is_similar q.email_domain e.email_domain DOMAIN_SIMILARITY_THRESHOLD
    else false
  let website_domain_match :=
    if is_proprietary_domain q.website_domain && is_proprietary_domain e.website_domain then
      q.website_domain != "" && e.website_domain != "" &&
        is_similar q.website_domain e.website_domain DOMAIN_SIMILARITY_THRESHOLD
    else false
  let cross_domain_match1 :=
    if is_proprietary_domain q.email_domain && is_proprietary_domain e.website_domain then
      q.email_domain != "" && e.website_domain != "" &&
        is_similar q.email_domain e.website_domain DOMAIN_SIMILARITY_THRESHOLD
    else false
  let cross_domain_match2 :=
    if is_proprietary_domain q.website_domain && is_proprietary_domain e.email_domain then
      q.website_domain != "" && e.email_domain != "" &&
        is_similar q.website_domain e.email_domain DOMAIN_SIMILARITY_THRESHOLD
    else false
  ⟨name_match, email_match, website_match, email_domain_match,
   website_domain_match, cross_domain_match1, cross_domain_match2⟩

/-- True when at least one of the seven predicates fired
(find_matches, lines 292-294). -/
def anyFlag (f : MatchFlags) : Bool :=
  f.name || f.email || f.website || f.email_domain || f.website_domain ||
    f.cross_domain1 || f.cross_domain2

/-- Scan of the exclusion list for one candidate (find_matches, lines
251-321): the first reference record for which any predicate fires yields the
match, and the scan stops there (the break statement). -/
def scanExclusion (row : Nat) (q : SideData) : List Record → Option MatchResult
  | [] => none
  | e :: es =>
    let ed := mkExclSide e
    let fl := computeFlags q ed
    if anyFlag fl then some ⟨row, fl, q, ed⟩ else scanExclusion row q es

/-- Matching of one candidate row against the whole exclusion list: rows whose
stripped name is empty are skipped (lines 246-248), otherwise the exclusion
list is scanned in order. -/
def findMatch (row : Nat) (cand : Record) (excl : List Record) : Option MatchResult :=
  let q := mkQueueSide cand
  if q.name = "" then none else scanExclusion row q excl

/-- Embedding of find_matches (lines 219-323) restricted to its core: queue
rows are numbered from 2 (row 1 is the header) and each contributes at most
one MatchResult. -/
def find_matches (queue excl : List Record) : List MatchResult :=
  (queue.enumFrom 2).filterMap (fun p => findMatch p.1 p.2 excl)

/-- Stripped triple of a queue row, as formed by process_queue_data
(move_from_queue_to_exclusion_list.py, lines 177-179). -/
def stripRec (r : Record) : Record :=
  ⟨pyStrip r.name, pyStrip r.email, pyStrip r.website⟩

/-- One step of the queue scan of process_queue_data (lines 175-188): skip a
row whose stripped triple is all empty; skip (entirely) a triple already in
the exclusion set; otherwise add the triple to the unique set (insertion
ordered) and append the row index to the removal list.  The row index is
appended whenever the triple is missing from the existing set, even when the
triple was already seen earlier in the same batch. -/
def dedupStep (existing : List Record) (st : List Record × List Nat)
    (p : Nat × Record) : List Record × List Nat :=
  let e := stripRec p.2
  if e.name = "" ∧ e.email = "" ∧ e.website = "" then st
  else if e ∈ existing then st
  else ((if e ∈ st.1 then st.1 else st.1 ++ [e]), st.2 ++ [p.1])

/-- Embedding of the deduplicating merger of process_queue_data (lines
172-188): the set of genuinely new triples (as an insertion-ordered
duplicate-free list) and the queue row indices to remove, rows numbered from
2 to account for the header row. -/
def computeNewEntries (cands : List Record) (existing : List Record) :
    List Record × List Nat :=
  (cands.enumFrom 2).foldl (dedupStep existing) ([], [])

/- ===================== helper lemmas ===================== -/

theorem splitOnChar_no_sep (sep : Char) :
    ∀ (cs : List Char), sep ∉ cs → splitOnChar sep cs = [cs] := by
  intro cs
  induction cs with
  | nil => intro _; rfl
  | cons c cs ih =>
    intro h
    have hc : ¬c = sep := fun hcs => h (hcs ▸ List.mem_cons_self c cs)
    have hcs : sep ∉ cs := fun hm => h (List.mem_cons_of_mem c hm)
    rw [splitOnChar, ih hcs]
    simp [hc]

theorem is_similar_left_empty (y : String) (t : Nat) : is_similar ("") y t = false := by
  simp [is_similar]

theorem is_similar_right_empty (x : String) (t : Nat) : is_similar x ("") t = false := by
  simp [is_similar]

theorem scanExclusion_some_shape :
    ∀ (es : List Record) (row : Nat) (q : SideData) (m : MatchResult),
      scanExclusion row q es = some m →
      ∃ e, e ∈ es ∧ m = ⟨row, computeFlags q (mkExclSide e), q, mkExclSide e⟩ := by
  intro es
  induction es with
  | nil => intro row q m h; exact absurd h (by simp [scanExclusion])
  | cons a as ih =>
    intro row q m h
    rw [scanExclusion] at h
    by_cases hf : anyFlag (computeFlags q (mkExclSide a)) = true
    · rw [if_pos hf] at h
      exact ⟨a, List.mem_cons_self a as, (Option.some_inj.mp h).symm⟩
    · rw [if_neg hf] at h
      rcases ih row q m h with ⟨e, he, hm⟩
      exact ⟨e, List.mem_cons_of_mem a he, hm⟩

/- ===================== claim C3 ===================== -/

/-- C3: evaluation of the code at the failing input.  The spec (and the code's
own comment, which says the prefix check handles cases like gmailuser.com.au)
claims the classifier flags a common-provider base name directly followed by
extra characters before the first dot as common; the code classifies
gmailuser.com as proprietary, because the first label gmailuser is not in the
base list and no string base-followed-by-dot is a prefix of gmailuser.com. -/
theorem gmailuser_classified_proprietary :
    is_proprietary_domain ("gmailuser.com") = true := by decide

/- ===================== claim C8 ===================== -/

/-- C8: domain extraction is total and recovers malformed input to the empty
string: an email with no at-sign yields the empty domain, and an empty
website yields the empty domain. -/
theorem domain_extraction_total :
    (∀ e : String, ('@') ∉ e.data → extract_domain_from_email e = "") ∧
    extract_domain_from_website ("") = "" := by
  constructor
  · intro e he
    rw [extract_domain_from_email]
    split
    · rfl
    · rw [splitOnChar_no_sep ('@') e.data he]
  · rfl

/-- C8 witness: the theorem applied at the concrete inputs named by the spec. -/
theorem domain_extraction_total_witness :
    extract_domain_from_email ("not-an-email") = "" :=
  domain_extraction_total.1 ("not-an-email") (by decide)

/- ===================== claim C9 ===================== -/

/-- C9: is_similar is false whenever either raw input is empty, for every
threshold; the emptiness check happens before normalization. -/
theorem is_similar_empty_false (x : String) (t : Nat) :
    is_similar ("") x t = false ∧ is_similar x ("") t = false :=
  ⟨is_similar_left_empty x t, is_similar_right_empty x t⟩

/- ===================== claim C1, counterexample ===================== -/

/-- C1 counterexample: normalization is not idempotent.  Removing special
characters can create a fresh legal-entity suffix token: normalize_text
turns l.t.d into ltd, and normalizing ltd yields the empty string. -/
theorem normalize_not_idempotent_cex :
    normalize_text (normalize_text ("l.t.d")) ≠ normalize_text ("l.t.d") := by decide

/- ===================== claim C2, counterexample ===================== -/

/-- C2 counterexample: for a batch of two rows carrying the same new triple,
the merger returns one copy in the new entries but marks BOTH row indices
(2 and 3) for removal, not only the first-seen row. -/
theorem dedup_marks_both_rows_cex :
    computeNewEntries [⟨"Acme", "a@b.com", "w.com"⟩, ⟨"Acme", "a@b.com", "w.com"⟩] [] =
      ([⟨"Acme", "a@b.com", "w.com"⟩], [2, 3]) := by decide

/- ===================== claim C5, counterexample ===================== -/

/-- C5 counterexample: a MatchResult is attributed to a reference record whose
name field is empty; the matcher has no skip for empty-name reference rows,
so a matching email (and its domain) fires against such a record. -/
theorem match_attributed_empty_name_cex :
    (find_matches [⟨"Acme", "a@b.com", ""⟩] [⟨"", "a@b.com", ""⟩]).map
        (fun m => m.exclusion_data.name) = [""] := by decide

/- ===================== claim C7, counterexample ===================== -/

/-- C7 counterexample: two records whose email domains are both gmail.com
(classified common) can still fire a domain-based predicate: the
website-domain predicate compares the website domains, which are unaffected
by the email domains, so proprietary matching websites fire it. -/
theorem common_email_website_flag_cex :
    is_proprietary_domain ("gmail.com") = false ∧
    (mkQueueSide ⟨"Alpha", "a@gmail.com", "http://winery.com"⟩).email_domain = "gmail.com" ∧
    (mkExclSide ⟨"Beta", "b@gmail.com", "winery.com"⟩).email_domain = "gmail.com" ∧
    (computeFlags (mkQueueSide ⟨"Alpha", "a@gmail.com", "http://winery.com"⟩)
        (mkExclSide ⟨"Beta", "b@gmail.com", "winery.com"⟩)).website_domain = true := by decide

/- ===================== claim C7, amended ===================== -/

/-- C7 amended: when both email domains are classified common, none of the
three domain-based predicates that compare an email domain fires: the
email-domain predicate and both cross-domain directions are each gated on the
email domain in question being proprietary.  (The website-domain predicate is
independent of the email domains and can still fire.) -/
theorem common_email_domains_no_email_domain_flags (q e : SideData)
    (hq : is_proprietary_domain q.email_domain = false)
    (he : is_proprietary_domain e.email_domain = false) :
    (computeFlags q e).email_domain = false ∧
    (computeFlags q e).cross_domain1 = false ∧
    (computeFlags q e).cross_domain2 = false := by
  refine ⟨?_, ?_, ?_⟩ <;> simp [computeFlags, hq, he]

/-- C7 witness: the amended theorem applied to two records whose email domains
are both gmail.com. -/
theorem common_email_domains_no_email_domain_flags_witness :
    (computeFlags (mkQueueSide ⟨"Alpha", "a@gmail.com", ""⟩)
        (mkExclSide ⟨"Beta", "b@gmail.com", ""⟩)).email_domain = false ∧
    (computeFlags (mkQueueSide ⟨"Alpha", "a@gmail.com", ""⟩)
        (mkExclSide ⟨"Beta", "b@gmail.com", ""⟩)).cross_domain1 = false ∧
    (computeFlags (mkQueueSide ⟨"Alpha", "a@gmail.com", ""⟩)
        (mkExclSide ⟨"Beta", "b@gmail.com", ""⟩)).cross_domain2 = false :=
  common_email_domains_no_email_domain_flags _ _ (by decide) (by decide)

/- ===================== claim C10 ===================== -/

/-- C10: two non-empty raw strings made only of legal-entity suffix tokens
(Pty and Ltd) pass the emptiness guard, normalize to the empty string, and the
fuzzy score of two empty strings is 100, so is_similar accepts them at every
threshold up to and including 100; hence two records carrying only these
names produce a name match. -/
theorem suffix_only_names_always_similar (t : Nat) (h : t ≤ 100) :
    is_similar ("Pty") ("Ltd") t = true ∧
    (find_matches [⟨"Pty", "", ""⟩] [⟨"Ltd", "", ""⟩]).map (fun m => m.flags.name) = [true] := by
  constructor
  · rw [is_similar, if_neg (by simp)]
    have h1 : normalize_text ("Pty") = "" := by decide
    have h2 : normalize_text ("Ltd") = "" := by decide
    rw [h1, h2]
    have h3 : similarityScore ("") ("") = 100 := by decide
    rw [h3]
    simpa using h
  · decide

/-- C10 witness: the theorem applied at the largest threshold, 100. -/
theorem suffix_only_names_always_similar_witness :
    is_similar ("Pty") ("Ltd") 100 = true ∧
    (find_matches [⟨"Pty", "", ""⟩] [⟨"Ltd", "", ""⟩]).map (fun m => m.flags.name) = [true] :=
  suffix_only_names_always_similar 100 (by decide)

/- ===================== claim C6 ===================== -/

/-- C6: first-match short-circuit.  For a candidate with a non-empty stripped
name, if no predicate fires for any reference record in the prefix pre and
some predicate fires for r, the matcher returns exactly the MatchResult built
from r, whatever comes after r; as the result type is an Option there is at
most one MatchResult per candidate, and reference order determines the
attribution. -/
theorem findMatch_first_match (row : Nat) (cand : Record) (pre post : List Record)
    (r : Record)
    (hname : (mkQueueSide cand).name ≠ "")
    (hpre : ∀ r' ∈ pre, anyFlag (computeFlags (mkQueueSide cand) (mkExclSide r')) = false)
    (hr : anyFlag (computeFlags (mkQueueSide cand) (mkExclSide r)) = true) :
    findMatch row cand (pre ++ r :: post) =
      some ⟨row, computeFlags (mkQueueSide cand) (mkExclSide r),
            mkQueueSide cand, mkExclSide r⟩ := by
  rw [findMatch]
  rw [if_neg hname]
  induction pre with
  | nil => rw [List.nil_append, scanExclusion, if_pos hr]
  | cons a as ih =>
    have ha := hpre a (List.mem_cons_self a as)
    rw [List.cons_append, scanExclusion]
    rw [if_neg (by rw [ha]; exact Bool.false_ne_true)]
    exact ih (fun r' hr' => hpre r' (List.mem_cons_of_mem a hr'))

/-- C6 witness: the theorem applied to a concrete candidate, a non-matching
first reference record and a matching second one. -/
theorem findMatch_first_match_witness :
    findMatch 2 ⟨"Aaa", "", ""⟩ ([⟨"Zzz", "", ""⟩] ++ ⟨"Aaa", "", ""⟩ :: []) =
      some ⟨2, computeFlags (mkQueueSide ⟨"Aaa", "", ""⟩) (mkExclSide ⟨"Aaa", "", ""⟩),
            mkQueueSide ⟨"Aaa", "", ""⟩, mkExclSide ⟨"Aaa", "", ""⟩⟩ :=
  findMatch_first_match 2 ⟨"Aaa", "", ""⟩ [⟨"Zzz", "", ""⟩] [] ⟨"Aaa", "", ""⟩
    (by decide) (by decide) (by decide)

/- ===================== claim C5, amended ===================== -/

/-- C5 amended: the matcher does not skip reference records with an empty
name; such records can be attributed a MatchResult through the email, website
and domain predicates (see the counterexample).  What does hold is that the
name predicate itself never fires for them: any MatchResult whose attributed
reference record has an empty name has a false name flag, because is_similar
never fuzzy-matches against an empty field. -/
theorem empty_name_ref_no_name_flag (queue excl : List Record) (m : MatchResult)
    (hm : m ∈ find_matches queue excl) (hname : m.exclusion_data.name = "") :
    m.flags.name = false := by
  rcases List.mem_filterMap.mp hm with ⟨p, _, hfind⟩
  rw [findMatch] at hfind
  by_cases hq : (mkQueueSide p.2).name = ""
  · rw [if_pos hq] at hfind
    exact absurd hfind (by simp)
  · rw [if_neg hq] at hfind
    rcases scanExclusion_some_shape excl p.1 (mkQueueSide p.2) m hfind with ⟨e, _, hme⟩
    subst hme
    simp only [MatchResult.mk.injEq] at hname ⊢
    simp only [computeFlags]
    rw [show (mkExclSide e).name = "" from hname]
    exact is_similar_right_empty _ _

/- ===================== claim C2, amended ===================== -/

theorem mem_enumFrom_get {α : Type} :
    ∀ (l : List α) (n : Nat) (k : Fin l.length), (n + k.1, l.get k) ∈ l.enumFrom n := by
  intro l
  induction l with
  | nil => intro n k; exact absurd k.2 (by simp)
  | cons a as ih =>
    intro n k
    match k with
    | ⟨0, _⟩ => simp [List.enumFrom]
    | ⟨j + 1, hj⟩ =>
      have := ih (n + 1) ⟨j, Nat.lt_of_succ_lt_succ hj⟩
      rw [List.enumFrom]
      refine List.mem_cons_of_mem _ ?_
      have harith : n + 1 + j = n + (j + 1) := by omega
      rw [harith] at this
      exact this

theorem dedup_foldl_nodup (existing : List Record) :
    ∀ (l : List (Nat × Record)) (st : List Record × List Nat), st.1.Nodup →
      ((l.foldl (dedupStep existing) st).1).Nodup := by
  intro l
  induction l with
  | nil => intro st h; exact h
  | cons p ps ih =>
    intro st h
    rw [List.foldl_cons]
    apply ih
    rw [dedupStep]
    split
    · exact h
    · split
      · exact h
      · by_cases hmem : stripRec p.2 ∈ st.1
        · rw [if_pos hmem]; exact h
        · rw [if_neg hmem]
          simpa [List.nodup_append] using ⟨h, hmem⟩

theorem dedup_foldl_mono (existing : List Record) :
    ∀ (l : List (Nat × Record)) (st : List Record × List Nat),
      (∀ x : Record, x ∈ st.1 → x ∈ (l.foldl (dedupStep existing) st).1) ∧
      (∀ i : Nat, i ∈ st.2 → i ∈ (l.foldl (dedupStep existing) st).2) := by
  intro l
  induction l with
  | nil => intro st; exact ⟨fun x h => h, fun i h => h⟩
  | cons p ps ih =>
    intro st
    rw [List.foldl_cons]
    refine ⟨fun x hx => (ih _).1 x ?_, fun i hi => (ih _).2 i ?_⟩
    · rw [dedupStep]
      split
      · exact hx
      · split
        · exact hx
        · split
          · exact hx
          · exact List.mem_append_left _ hx
    · rw [dedupStep]
      split
      · exact hi
      · split
        · exact hi
        · exact List.mem_append_left _ hi

theorem dedup_foldl_adds (existing : List Record) :
    ∀ (l : List (Nat × Record)) (st : List Record × List Nat) (i : Nat) (r : Record),
      (i, r) ∈ l →
      ¬((stripRec r).name = "" ∧ (stripRec r).email = "" ∧ (stripRec r).website = "") →
      stripRec r ∉ existing →
      stripRec r ∈ (l.foldl (dedupStep existing) st).1 ∧
        i ∈ (l.foldl (dedupStep existing) st).2 := by
  intro l
  induction l with
  | nil => intro _ _ _ h; exact absurd h (by simp)
  | cons p ps ih =>
    intro st i r hmem hne hnew
    rcases List.mem_cons.mp hmem with heq | htail
    · rw [List.foldl_cons]
      have hstep1 : stripRec r ∈ (dedupStep existing st p).1 := by
        rw [← heq, dedupStep]
        rw [if_neg hne, if_neg hnew]
        by_cases hmem2 : stripRec r ∈ st.1
        · rw [if_pos hmem2]; exact hmem2
        · rw [if_neg hmem2]; exact List.mem_append_right _ (List.mem_singleton.mpr rfl)
      have hstep2 : i ∈ (dedupStep existing st p).2 := by
        rw [← heq, dedupStep]
        rw [if_neg hne, if_neg hnew]
        exact List.mem_append_right _ (List.mem_singleton.mpr rfl)
      exact ⟨(dedup_foldl_mono existing ps _).1 _ hstep1,
             (dedup_foldl_mono existing ps _).2 _ hstep2⟩
    · rw [List.foldl_cons]
      exact ih _ i r htail hne hnew

/-- C2 amended: for every candidate batch containing two rows (at positions i
and j) carrying the same stripped triple e that is not all-empty and not in
the existing set, the merger returns exactly one copy of e in the new entries
but marks BOTH rows' indices for removal: the row-removal list receives the
index of every row whose triple is missing from the existing set, including
in-batch duplicates; only the new-entries set is deduplicated. -/
theorem dedup_unique_entry_both_marked (cands existing : List Record)
    (i j : Fin cands.length) (_hij : i ≠ j) (e : Record)
    (hi : stripRec (cands.get i) = e) (hj : stripRec (cands.get j) = e)
    (hne : ¬(e.name = "" ∧ e.email = "" ∧ e.website = ""))
    (hnew : e ∉ existing) :
    (computeNewEntries cands existing).1.count e = 1 ∧
    (2 + i.1) ∈ (computeNewEntries cands existing).2 ∧
    (2 + j.1) ∈ (computeNewEntries cands existing).2 := by
  have hmi := mem_enumFrom_get cands 2 i
  have hmj := mem_enumFrom_get cands 2 j
  have haddi := dedup_foldl_adds existing (cands.enumFrom 2) ([], []) (2 + i.1)
    (cands.get i) hmi (by rw [hi]; exact hne) (by rw [hi]; exact hnew)
  have haddj := dedup_foldl_adds existing (cands.enumFrom 2) ([], []) (2 + j.1)
    (cands.get j) hmj (by rw [hj]; exact hne) (by rw [hj]; exact hnew)
  have hnodup := dedup_foldl_nodup existing (cands.enumFrom 2) ([], []) List.nodup_nil
  rw [computeNewEntries]
  refine ⟨?_, haddi.2, haddj.2⟩
  exact List.count_eq_one_of_mem hnodup (hi ▸ haddi.1)

/-- C2 witness: the amended theorem applied to a two-row batch both of whose
rows carry the same fresh triple. -/
theorem dedup_unique_entry_both_marked_witness :
    (computeNewEntries [⟨"A", "b", "c"⟩, ⟨"A", "b", "c"⟩] []).1.count ⟨"A", "b", "c"⟩ = 1 ∧
    (2 + 0) ∈ (computeNewEntries [⟨"A", "b", "c"⟩, ⟨"A", "b", "c"⟩] []).2 ∧
    (2 + 1) ∈ (computeNewEntries [⟨"A", "b", "c"⟩, ⟨"A", "b", "c"⟩] []).2 :=
  dedup_unique_entry_both_marked [⟨"A", "b", "c"⟩, ⟨"A", "b", "c"⟩] []
    ⟨0, by decide⟩ ⟨1, by decide⟩ (by decide) ⟨"A", "b", "c"⟩
    (by decide) (by decide) (by decide) (by decide)

/- ===================== claim C4 ===================== -/

theorem levFuel_eq_zero_iff :
    ∀ (f : Nat) (a b : List Char), a.length + b.length ≤ f →
      (levFuel f a b = 0 ↔ a = b) := by
  intro f
  induction f with
  | zero =>
    intro a b hab
    match a, b with
    | [], ys => simp [levFuel, eq_comm]
    | x :: xs, [] => simp [levFuel]
    | x :: xs, y :: ys => simp at hab
  | succ f ih =>
    intro a b hab
    match a, b with
    | [], ys => simp [levFuel, eq_comm]
    | x :: xs, [] => simp [levFuel]
    | x :: xs, y :: ys =>
      rw [levFuel]
      by_cases hxy : x = y
      · rw [if_pos hxy]
        rw [ih xs ys (by simp at hab; omega)]
        subst hxy
        simp
      · rw [if_neg hxy]
        constructor
        · intro h; omega
        · intro h
          injection h with h1 h2
          exact absurd h1 hxy

theorem levDist_eq_zero_iff (a b : List Char) : levDist a b = 0 ↔ a = b :=
  levFuel_eq_zero_iff (a.length + b.length) a b le_rfl

theorem levDist_self (a : List Char) : levDist a a = 0 :=
  (levDist_eq_zero_iff a a).mpr rfl

theorem pyRound_exact (m : Nat) (hm : 0 < m) : pyRound (100 * m) m = 100 := by
  have hd : 100 * m / m = 100 := Nat.mul_div_cancel 100 hm
  have hr : 100 * m % m = 0 := Nat.mul_mod_left 100 m
  simp only [pyRound, hd, hr]
  simp [hm]

theorem pyRound_le_99 (p m : Nat) (hm : 0 < m) (hm199 : m ≤ 199)
    (hp : p + 100 ≤ 100 * m) : pyRound p m ≤ 99 := by
  have hdr : m * (p / m) + p % m = p := Nat.div_add_mod p m
  have hrm : p % m < m := Nat.mod_lt p hm
  simp only [pyRound]
  by_cases hc1 : m < 2 * (p % m)
  · rw [if_pos hc1]
    by_contra hc
    push_neg at hc
    have hd99 : 99 ≤ p / m := by omega
    have hmul : m * 99 ≤ m * (p / m) := Nat.mul_le_mul_left m hd99
    generalize hz : m * (p / m) = z at hdr hmul
    omega
  · rw [if_neg hc1]
    by_cases hc2 : 2 * (p % m) < m
    · rw [if_pos hc2]
      have : p / m < 100 := (Nat.div_lt_iff_lt_mul hm).mpr (by omega)
      omega
    · rw [if_neg hc2]
      split
      · by_contra hc
        push_neg at hc
        have hd99 : 99 ≤ p / m := by omega
        have hmul : m * 99 ≤ m * (p / m) := Nat.mul_le_mul_left m hd99
        generalize hz : m * (p / m) = z at hdr hmul
        omega
      · have : p / m < 100 := (Nat.div_lt_iff_lt_mul hm).mpr (by omega)
        omega

theorem similarityScore_100_iff (s1 s2 : String)
    (h1 : s1.data.length ≤ 199) (h2 : s2.data.length ≤ 199) :
    (100 ≤ similarityScore s1 s2 ↔ s1 = s2) := by
  simp only [similarityScore]
  by_cases hm : max s1.data.length s2.data.length = 0
  · rw [if_pos hm]
    simp only [Nat.max_eq_zero_iff, List.length_eq_zero] at hm
    constructor
    · intro _
      apply String.ext
      rw [hm.1, hm.2]
    · intro _; exact le_rfl
  · rw [if_neg hm]
    have hmpos : 0 < max s1.data.length s2.data.length := Nat.pos_of_ne_zero hm
    have hm199 : max s1.data.length s2.data.length ≤ 199 := by omega
    constructor
    · intro h100
      by_contra hne
      have hlev : levDist s1.data s2.data ≠ 0 := by
        intro h0
        exact hne (String.ext ((levDist_eq_zero_iff s1.data s2.data).mp h0))
      have h1lev : 1 ≤ levDist s1.data s2.data := Nat.one_le_iff_ne_zero.mpr hlev
      have hp : 100 * (max s1.data.length s2.data.length - levDist s1.data s2.data) + 100 ≤
          100 * max s1.data.length s2.data.length := by omega
      have := pyRound_le_99 _ _ hmpos hm199 hp
      omega
    · intro heq
      subst heq
      rw [levDist_self, Nat.sub_zero, pyRound_exact _ hmpos]

set_option maxRecDepth 100000 in
/-- C4 counterexample: the 100 threshold does accept two distinct proprietary
domains once they are long enough.  For the 200-character and 199-character
domains made of the letter a, the edit distance is 1, the ratio is
100 * 199/200 = 99.5, and Python rounding (half to even) lifts it to 100, so
the email-domain predicate fires although the two domains differ both as raw
strings and after normalization. -/
theorem domain_threshold_accepts_distinct_cex :
    is_proprietary_domain (String.mk (List.replicate 200 ('a'))) = true ∧
    is_proprietary_domain (String.mk (List.replicate 199 ('a'))) = true ∧
    normalize_text (String.mk (List.replicate 200 ('a'))) ≠
      normalize_text (String.mk (List.replicate 199 ('a'))) ∧
    is_similar (String.mk (List.replicate 200 ('a'))) (String.mk (List.replicate 199 ('a')))
      DOMAIN_SIMILARITY_THRESHOLD = true ∧
    (computeFlags ⟨"x", "", "", String.mk (List.replicate 200 ('a')), ""⟩
        ⟨"y", "", "", String.mk (List.replicate 199 ('a')), ""⟩).email_domain = true := by
  decide

/-- C4 amended: for non-empty proprietary domains whose normalized forms are
at most 199 characters long, the 100-threshold domain comparison is exactly
equality of the normalized domains, in both directions; beyond that length
the rounding of the ratio can accept two distinct domains (see the
counterexample). -/
theorem domain_threshold_exact_below_200 (d1 d2 : String)
    (h1 : d1 ≠ "") (h2 : d2 ≠ "")
    (hp1 : is_proprietary_domain d1 = true) (hp2 : is_proprietary_domain d2 = true)
    (hl1 : (normalize_text d1).data.length ≤ 199)
    (hl2 : (normalize_text d2).data.length ≤ 199) :
    (is_similar d1 d2 DOMAIN_SIMILARITY_THRESHOLD = true ↔
      normalize_text d1 = normalize_text d2) ∧
    ∀ q e : SideData, q.email_domain = d1 → e.email_domain = d2 →
      ((computeFlags q e).email_domain = true ↔ normalize_text d1 = normalize_text d2) := by
  have hcore : is_similar d1 d2 DOMAIN_SIMILARITY_THRESHOLD = true ↔
      normalize_text d1 = normalize_text d2 := by
    rw [is_similar, if_neg (not_or.mpr ⟨h1, h2⟩)]
    rw [show DOMAIN_SIMILARITY_THRESHOLD = 100 from rfl]
    rw [decide_eq_true_eq]
    exact similarityScore_100_iff (normalize_text d1) (normalize_text d2) hl1 hl2
  refine ⟨hcore, ?_⟩
  intro q e hq he
  subst hq
  subst he
  simp only [computeFlags]
  rw [hp1, hp2]
  simp only [Bool.and_self, if_true]
  rw [show (q.email_domain != "") = true from bne_iff_ne.mpr h1]
  rw [show (e.email_domain != "") = true from bne_iff_ne.mpr h2]
  simpa using hcore

/-- C4 witness: the amended theorem applied to a concrete proprietary domain
compared with itself. -/
theorem domain_threshold_exact_below_200_witness :
    is_similar ("acme.com") ("acme.com") DOMAIN_SIMILARITY_THRESHOLD = true ↔
      normalize_text ("acme.com") = normalize_text ("acme.com") :=
  (domain_threshold_exact_below_200 ("acme.com") ("acme.com") (by decide) (by decide)
    (by decide) (by decide) (by decide) (by decide)).1

/- ===================== claim C1, amended: character lemmas ===================== -/

theorem char_toNat_ofNat_valid (n : Nat) (h : n.isValidChar) : (Char.ofNat n).toNat = n := by
  simp [Char.ofNat, h, Char.ofNatAux, Char.toNat, UInt32.toNat, BitVec.toNat_ofNatLt]

theorem toLower_val_of_upper (c : Char) (h1 : 65 ≤ c.toNat) (h2 : c.toNat ≤ 90) :
    (Char.toLower c).toNat = c.toNat + 32 := by
  have hv : (c.toNat + 32).isValidChar := by left; omega
  simp [Char.toLower, h1, h2, char_toNat_ofNat_valid _ hv]

theorem toLower_of_not_upper (c : Char) (h : ¬(65 ≤ c.toNat ∧ c.toNat ≤ 90)) :
    Char.toLower c = c := by
  simp [Char.toLower]
  intro h1 h2
  exact absurd ⟨h1, h2⟩ h

theorem toLower_idem (c : Char) : Char.toLower (Char.toLower c) = Char.toLower c := by
  by_cases h : 65 ≤ c.toNat ∧ c.toNat ≤ 90
  · have hval := toLower_val_of_upper c h.1 h.2
    apply toLower_of_not_upper
    omega
  · rw [toLower_of_not_upper c h, toLower_of_not_upper c h]

theorem word_not_space (c : Char) (h : isWordChar c = true) : isSpaceChar c = false := by
  simp only [isWordChar, decide_eq_true_eq] at h
  simp only [isSpaceChar, decide_eq_false_iff_not]
  omega

theorem space_not_word (c : Char) (h : isSpaceChar c = true) : isWordChar c = false := by
  simp only [isSpaceChar, decide_eq_true_eq] at h
  simp only [isWordChar, decide_eq_false_iff_not]
  omega

theorem toLower_word (c : Char) (h : isWordChar c = true) : isWordChar (Char.toLower c) = true := by
  simp only [isWordChar, decide_eq_true_eq] at h ⊢
  by_cases hu : 65 ≤ c.toNat ∧ c.toNat ≤ 90
  · rw [toLower_val_of_upper c hu.1 hu.2]
    omega
  · rw [toLower_of_not_upper c hu]
    exact h

theorem toLower_space (c : Char) (h : isSpaceChar c = true) : Char.toLower c = c := by
  simp only [isSpaceChar, decide_eq_true_eq] at h
  apply toLower_of_not_upper
  omega

theorem toLower_word_or_space (c : Char) (h : isWordChar c = true ∨ isSpaceChar c = true) :
    isWordChar (Char.toLower c) = true ∨ isSpaceChar (Char.toLower c) = true := by
  rcases h with hw | hs
  · exact Or.inl (toLower_word c hw)
  · rw [toLower_space c hs]
    exact Or.inr hs

theorem space_char_is_space : isSpaceChar (' ') = true := by decide

theorem space_char_not_word : isWordChar (' ') = false := by decide

theorem bool_ne_true_of_false {b : Bool} (h : b = false) : ¬(b = true) := by
  rw [h]
  exact Bool.false_ne_true

theorem bool_false_of_ne_true {b : Bool} (h : ¬(b = true)) : b = false := by
  cases b
  · rfl
  · exact absurd rfl h

/- ===================== claim C1, amended: word-run lemmas ===================== -/

theorem wordsGo_allWord :
    ∀ (w acc : List Char), (∀ c ∈ w, isWordChar c = true) →
      wordsGo w acc = if acc.reverse ++ w = [] then [] else [acc.reverse ++ w] := by
  intro w
  induction w with
  | nil =>
    intro acc _
    rw [wordsGo]
    by_cases h : acc = []
    · subst h
      simp
    · rw [if_neg h, if_neg (by simp [h])]
      simp
  | cons c cs ih =>
    intro acc hw
    rw [wordsGo, if_pos (hw c (List.mem_cons_self c cs))]
    rw [ih (c :: acc) (fun x hx => hw x (List.mem_cons_of_mem c hx))]
    simp

theorem wordsGo_split :
    ∀ (w : List Char) (c : Char) (ys acc : List Char),
      (∀ x ∈ w, isWordChar x = true) → isWordChar c = false →
      wordsGo (w ++ c :: ys) acc =
        (if acc.reverse ++ w = [] then [] else [acc.reverse ++ w]) ++ wordsGo ys [] := by
  intro w
  induction w with
  | nil =>
    intro c ys acc _ hc
    rw [List.nil_append, wordsGo, if_neg (bool_ne_true_of_false hc)]
    by_cases h : acc = []
    · subst h
      simp
    · rw [if_neg h, if_neg (by simp [h])]
      simp
  | cons x xs ih =>
    intro c ys acc hw hc
    rw [List.cons_append, wordsGo, if_pos (hw x (List.mem_cons_self x xs))]
    rw [ih c ys (x :: acc) (fun z hz => hw z (List.mem_cons_of_mem x hz)) hc]
    simp

theorem wordsGo_all_space :
    ∀ (cs : List Char), (∀ x ∈ cs, isSpaceChar x = true) →
      ∀ acc, wordsGo cs acc = if acc = [] then [] else [acc.reverse] := by
  intro cs
  induction cs with
  | nil =>
    intro _ acc
    rw [wordsGo]
  | cons c cs ih =>
    intro h acc
    have hcw : isWordChar c = false := space_not_word c (h c (List.mem_cons_self c cs))
    rw [wordsGo, if_neg (bool_ne_true_of_false hcw)]
    have ihs := ih (fun x hx => h x (List.mem_cons_of_mem c hx))
    by_cases hacc : acc = []
    · rw [if_pos hacc, if_pos hacc, ihs []]
      simp
    · rw [if_neg hacc, if_neg hacc, ihs []]
      simp

theorem rstrip_eq_nil_all_space :
    ∀ (cs : List Char), rstripChars cs = [] → ∀ x ∈ cs, isSpaceChar x = true := by
  intro cs
  induction cs with
  | nil =>
    intro _ x hx
    exact absurd hx (List.not_mem_nil x)
  | cons c cs ih =>
    intro h x hx
    rw [rstripChars] at h
    cases hr : rstripChars cs with
    | nil =>
      rw [hr, rstripAux] at h
      by_cases hc : isSpaceChar c = true
      · rcases List.mem_cons.mp hx with he | ht
        · subst he
          exact hc
        · exact ih hr x ht
      · rw [if_neg hc] at h
        exact absurd h (by simp)
    | cons d ds =>
      rw [hr, rstripAux] at h
      exact absurd h (by simp)

theorem wordsGo_rstrip :
    ∀ (cs : List Char) (acc : List Char), wordsGo (rstripChars cs) acc = wordsGo cs acc := by
  intro cs
  induction cs with
  | nil =>
    intro acc
    rfl
  | cons c cs ih =>
    intro acc
    rw [rstripChars]
    cases hr : rstripChars cs with
    | nil =>
      rw [rstripAux]
      have hall := rstrip_eq_nil_all_space cs hr
      have hcs0 := wordsGo_all_space cs hall
      by_cases hc : isSpaceChar c = true
      · rw [if_pos hc]
        have hcw : isWordChar c = false := space_not_word c hc
        have h2 : wordsGo (c :: cs) acc = if acc = [] then [] else [acc.reverse] := by
          rw [wordsGo, if_neg (bool_ne_true_of_false hcw)]
          by_cases hacc : acc = []
          · rw [if_pos hacc, if_pos hacc, hcs0 []]
            simp
          · rw [if_neg hacc, if_neg hacc, hcs0 []]
            simp
        rw [h2, wordsGo]
      · rw [if_neg hc]
        by_cases hw : isWordChar c = true
        · have h1 : wordsGo [c] acc = [(c :: acc).reverse] := by
            rw [wordsGo, if_pos hw, wordsGo, if_neg (by simp)]
          have h2 : wordsGo (c :: cs) acc = [(c :: acc).reverse] := by
            rw [wordsGo, if_pos hw, hcs0 (c :: acc), if_neg (by simp)]
          rw [h1, h2]
        · have hwf : isWordChar c = false := bool_false_of_ne_true hw
          have h1 : wordsGo [c] acc = if acc = [] then [] else [acc.reverse] := by
            rw [wordsGo, if_neg (bool_ne_true_of_false hwf)]
            by_cases hacc : acc = []
            · rw [if_pos hacc, if_pos hacc, wordsGo]
              simp
            · rw [if_neg hacc, if_neg hacc, wordsGo]
              simp
          have h2 : wordsGo (c :: cs) acc = if acc = [] then [] else [acc.reverse] := by
            rw [wordsGo, if_neg (bool_ne_true_of_false hwf)]
            by_cases hacc : acc = []
            · rw [if_pos hacc, if_pos hacc, hcs0 []]
              simp
            · rw [if_neg hacc, if_neg hacc, hcs0 []]
              simp
          rw [h1, h2]
    | cons d ds =>
      rw [rstripAux]
      rw [← hr]
      by_cases hw : isWordChar c = true
      · rw [wordsGo, if_pos hw, wordsGo, if_pos hw]
        exact ih (c :: acc)
      · have hwf : isWordChar c = false := bool_false_of_ne_true hw
        rw [wordsGo, if_neg (bool_ne_true_of_false hwf)]
        conv_rhs => rw [wordsGo]
        rw [if_neg (bool_ne_true_of_false hwf)]
        by_cases hacc : acc = []
        · rw [if_pos hacc, if_pos hacc]
          exact ih []
        · rw [if_neg hacc, if_neg hacc, ih []]

theorem wordsGo_dropWhile_space :
    ∀ (cs : List Char), wordsGo (cs.dropWhile isSpaceChar) [] = wordsGo cs [] := by
  intro cs
  induction cs with
  | nil => rfl
  | cons c cs ih =>
    rw [List.dropWhile_cons]
    by_cases hc : isSpaceChar c = true
    · rw [if_pos hc, ih, wordsGo, if_neg (bool_ne_true_of_false (space_not_word c hc)),
          if_pos rfl]
    · rw [if_neg (by simp [hc])]

theorem wordsGo_collapse :
    ∀ (cs : List Char) (acc : List Char), wordsGo (collapseWs cs) acc = wordsGo cs acc := by
  intro cs
  induction cs with
  | nil =>
    intro acc
    rfl
  | cons c cs ih =>
    intro acc
    cases cs with
    | nil =>
      rw [collapseWs]
      by_cases hc : isSpaceChar c = true
      · rw [if_pos hc]
        have hcw := space_not_word c hc
        rw [wordsGo, if_neg (bool_ne_true_of_false space_char_not_word)]
        conv_rhs => rw [wordsGo]
        rw [if_neg (bool_ne_true_of_false hcw)]
      · rw [if_neg hc]
    | cons d cs' =>
      rw [collapseWs]
      by_cases hc : isSpaceChar c = true
      · rw [if_pos hc]
        have hcw := space_not_word c hc
        by_cases hd : isSpaceChar d = true
        · rw [if_pos hd, ih]
          have hdw := space_not_word d hd
          conv_rhs => rw [wordsGo]
          rw [if_neg (bool_ne_true_of_false hcw)]
          conv_lhs => rw [wordsGo]
          rw [if_neg (bool_ne_true_of_false hdw)]
          by_cases hacc : acc = []
          · rw [if_pos hacc, if_pos hacc]
            rw [wordsGo, if_neg (bool_ne_true_of_false hdw), if_pos rfl]
          · rw [if_neg hacc, if_neg hacc]
            rw [wordsGo, if_neg (bool_ne_true_of_false hdw), if_pos rfl]
        · rw [if_neg hd]
          rw [wordsGo, if_neg (bool_ne_true_of_false space_char_not_word)]
          conv_rhs => rw [wordsGo]
          rw [if_neg (bool_ne_true_of_false hcw)]
          by_cases hacc : acc = []
          · rw [if_pos hacc, if_pos hacc, ih]
          · rw [if_neg hacc, if_neg hacc, ih]
      · rw [if_neg hc]
        by_cases hw : isWordChar c = true
        · rw [wordsGo, if_pos hw]
          conv_rhs => rw [wordsGo]
          rw [if_pos hw, ih]
        · have hwf := bool_false_of_ne_true hw
          rw [wordsGo, if_neg (bool_ne_true_of_false hwf)]
          conv_rhs => rw [wordsGo]
          rw [if_neg (bool_ne_true_of_false hwf)]
          by_cases hacc : acc = []
          · rw [if_pos hacc, if_pos hacc, ih]
          · rw [if_neg hacc, if_neg hacc, ih]

theorem wordRuns_strip_collapse (cs : List Char) :
    wordRuns (stripChars (collapseWs cs)) = wordRuns cs := by
  rw [wordRuns, stripChars, wordsGo_rstrip, wordsGo_dropWhile_space, wordsGo_collapse]
  rfl

/- ===================== claim C1, amended: suffix-removal lemmas ===================== -/

theorem flushRun_of_not_token (r : List Char) (h : suffixTokens.contains r = false) :
    flushRun r = r := by
  rw [flushRun, if_neg (bool_ne_true_of_false h)]

theorem flushRun_allWord (r : List Char) (h : ∀ c ∈ r, isWordChar c = true) :
    ∀ c ∈ flushRun r, isWordChar c = true := by
  intro c hc
  rw [flushRun] at hc
  by_cases ht : suffixTokens.contains r = true
  · rw [if_pos ht] at hc
    exact absurd hc (List.not_mem_nil c)
  · rw [if_neg ht] at hc
    exact h c hc

theorem mem_remSufGo :
    ∀ (cs acc : List Char) (x : Char), x ∈ remSufGo cs acc → x ∈ cs ∨ x ∈ acc := by
  intro cs
  induction cs with
  | nil =>
    intro acc x hx
    rw [remSufGo, flushRun] at hx
    right
    by_cases ht : suffixTokens.contains acc.reverse = true
    · rw [if_pos ht] at hx
      exact absurd hx (List.not_mem_nil x)
    · rw [if_neg ht] at hx
      exact List.mem_reverse.mp hx
  | cons c cs ih =>
    intro acc x hx
    rw [remSufGo] at hx
    by_cases hw : isWordChar c = true
    · rw [if_pos hw] at hx
      rcases ih (c :: acc) x hx with h1 | h2
      · exact Or.inl (List.mem_cons_of_mem c h1)
      · rcases List.mem_cons.mp h2 with he | ha
        · exact Or.inl (he ▸ List.mem_cons_self c cs)
        · exact Or.inr ha
    · rw [if_neg hw] at hx
      rcases List.mem_append.mp hx with h1 | h2
      · right
        rw [flushRun] at h1
        by_cases ht : suffixTokens.contains acc.reverse = true
        · rw [if_pos ht] at h1
          exact absurd h1 (List.not_mem_nil x)
        · rw [if_neg ht] at h1
          exact List.mem_reverse.mp h1
      · rcases List.mem_cons.mp h2 with he | hm
        · exact Or.inl (he ▸ List.mem_cons_self c cs)
        · rcases ih [] x hm with h3 | h4
          · exact Or.inl (List.mem_cons_of_mem c h3)
          · exact absurd h4 (List.not_mem_nil x)

theorem remSufGo_fix :
    ∀ (cs acc : List Char),
      (∀ r ∈ wordsGo cs acc, suffixTokens.contains r = false) →
      remSufGo cs acc = acc.reverse ++ cs := by
  intro cs
  induction cs with
  | nil =>
    intro acc h
    rw [remSufGo, List.append_nil]
    by_cases hacc : acc = []
    · subst hacc
      decide
    · have hmem : acc.reverse ∈ wordsGo ([] : List Char) acc := by
        rw [wordsGo, if_neg hacc]
        exact List.mem_singleton.mpr rfl
      exact flushRun_of_not_token acc.reverse (h acc.reverse hmem)
  | cons c cs ih =>
    intro acc h
    rw [remSufGo]
    by_cases hw : isWordChar c = true
    · rw [if_pos hw]
      have h' : ∀ r ∈ wordsGo cs (c :: acc), suffixTokens.contains r = false := by
        intro r hr
        apply h
        rw [wordsGo, if_pos hw]
        exact hr
      rw [ih (c :: acc) h']
      simp
    · rw [if_neg hw]
      have hwf : isWordChar c = false := bool_false_of_ne_true hw
      by_cases hacc : acc = []
      · subst hacc
        have h' : ∀ r ∈ wordsGo cs ([] : List Char), suffixTokens.contains r = false := by
          intro r hr
          apply h
          rw [wordsGo, if_neg hw, if_pos rfl]
          exact hr
        rw [ih [] h']
        have hfr : flushRun ([] : List Char) = [] := by decide
        simp [hfr]
      · have hhead : suffixTokens.contains acc.reverse = false := by
          apply h
          rw [wordsGo, if_neg hw, if_neg hacc]
          exact List.mem_cons_self _ _
        have h' : ∀ r ∈ wordsGo cs ([] : List Char), suffixTokens.contains r = false := by
          intro r hr
          apply h
          rw [wordsGo, if_neg hw, if_neg hacc]
          exact List.mem_cons_of_mem _ hr
        rw [ih [] h', flushRun_of_not_token acc.reverse hhead]
        simp

theorem remSufGo_clean :
    ∀ (cs acc : List Char), (∀ x ∈ acc, isWordChar x = true) →
      ∀ r ∈ wordRuns (remSufGo cs acc), suffixTokens.contains r = false := by
  intro cs
  induction cs with
  | nil =>
    intro acc hacc r hr
    rw [remSufGo, flushRun] at hr
    by_cases ht : suffixTokens.contains acc.reverse = true
    · rw [if_pos ht] at hr
      rw [wordRuns, wordsGo] at hr
      simp at hr
    · rw [if_neg ht] at hr
      have haw : ∀ c ∈ acc.reverse, isWordChar c = true :=
        fun c hc => hacc c (List.mem_reverse.mp hc)
      rw [wordRuns, wordsGo_allWord acc.reverse [] haw] at hr
      by_cases hne : acc.reverse = []
      · rw [if_pos (by simp [hne])] at hr
        exact absurd hr (List.not_mem_nil r)
      · rw [if_neg (by simp [hne])] at hr
        rw [List.mem_singleton.mp hr]
        simpa using bool_false_of_ne_true ht
  | cons c cs ih =>
    intro acc hacc r hr
    rw [remSufGo] at hr
    by_cases hw : isWordChar c = true
    · rw [if_pos hw] at hr
      refine ih (c :: acc) ?_ r hr
      intro x hx
      rcases List.mem_cons.mp hx with he | hm
      · exact he ▸ hw
      · exact hacc x hm
    · rw [if_neg hw] at hr
      have hwf : isWordChar c = false := bool_false_of_ne_true hw
      have haw : ∀ x ∈ acc.reverse, isWordChar x = true :=
        fun x hx => hacc x (List.mem_reverse.mp hx)
      have hfw : ∀ x ∈ flushRun acc.reverse, isWordChar x = true := flushRun_allWord _ haw
      rw [wordRuns, wordsGo_split (flushRun acc.reverse) c (remSufGo cs []) [] hfw hwf] at hr
      rcases List.mem_append.mp hr with h1 | h2
      · by_cases hfe : flushRun acc.reverse = []
        · rw [if_pos (by simp [hfe])] at h1
          exact absurd h1 (List.not_mem_nil r)
        · rw [if_neg (by simp [hfe])] at h1
          have hft : suffixTokens.contains acc.reverse = false := by
            by_cases ht : suffixTokens.contains acc.reverse = true
            · exact absurd (by rw [flushRun, if_pos ht]) hfe
            · exact bool_false_of_ne_true ht
          rw [List.mem_singleton.mp h1]
          simpa [flushRun_of_not_token acc.reverse hft] using hft
      · exact ih [] (by intro x hx; exact absurd hx (List.not_mem_nil x)) r h2

/- ===================== claim C1, amended: collapse and strip lemmas ===================== -/

theorem mem_collapse :
    ∀ (cs : List Char) (x : Char), x ∈ collapseWs cs →
      (x ∈ cs ∧ isSpaceChar x = false) ∨ x = ' ' := by
  intro cs
  induction cs with
  | nil =>
    intro x hx
    exact absurd hx (List.not_mem_nil x)
  | cons c cs ih =>
    intro x hx
    cases cs with
    | nil =>
      rw [collapseWs] at hx
      by_cases hc : isSpaceChar c = true
      · rw [if_pos hc] at hx
        exact Or.inr (List.mem_singleton.mp hx)
      · rw [if_neg hc] at hx
        have hxc := List.mem_singleton.mp hx
        subst hxc
        exact Or.inl ⟨List.mem_cons_self x [], bool_false_of_ne_true hc⟩
    | cons d cs' =>
      rw [collapseWs] at hx
      by_cases hc : isSpaceChar c = true
      · rw [if_pos hc] at hx
        by_cases hd : isSpaceChar d = true
        · rw [if_pos hd] at hx
          rcases ih x hx with ⟨hm, hs⟩ | he
          · exact Or.inl ⟨List.mem_cons_of_mem c hm, hs⟩
          · exact Or.inr he
        · rw [if_neg hd] at hx
          rcases List.mem_cons.mp hx with he | hm
          · exact Or.inr he
          · rcases ih x hm with ⟨hm2, hs⟩ | he
            · exact Or.inl ⟨List.mem_cons_of_mem c hm2, hs⟩
            · exact Or.inr he
      · rw [if_neg hc] at hx
        rcases List.mem_cons.mp hx with he | hm
        · subst he
          exact Or.inl ⟨List.mem_cons_self _ _, bool_false_of_ne_true hc⟩
        · rcases ih x hm with ⟨hm2, hs⟩ | he
          · exact Or.inl ⟨List.mem_cons_of_mem c hm2, hs⟩
          · exact Or.inr he

theorem collapse_head (d : Char) (cs' : List Char) (hd : isSpaceChar d = false) :
    (collapseWs (d :: cs')).head? = some d := by
  cases cs' with
  | nil =>
    rw [collapseWs, if_neg (bool_ne_true_of_false hd)]
    rfl
  | cons e cs'' =>
    rw [collapseWs, if_neg (bool_ne_true_of_false hd)]
    rfl

theorem collapse_chain : ∀ (cs : List Char), List.Chain' spacedApart (collapseWs cs) := by
  intro cs
  induction cs with
  | nil => exact List.chain'_nil
  | cons c cs ih =>
    cases cs with
    | nil =>
      rw [collapseWs]
      by_cases hc : isSpaceChar c = true
      · rw [if_pos hc]
        exact List.chain'_singleton _
      · rw [if_neg hc]
        exact List.chain'_singleton _
    | cons d cs' =>
      rw [collapseWs]
      by_cases hc : isSpaceChar c = true
      · rw [if_pos hc]
        by_cases hd : isSpaceChar d = true
        · rw [if_pos hd]
          exact ih
        · rw [if_neg hd]
          refine List.chain'_cons'.mpr ⟨?_, ih⟩
          intro y hy
          rw [collapse_head d cs' (bool_false_of_ne_true hd)] at hy
          have hyd : d = y := by simpa using hy
          subst hyd
          intro hcon
          exact bool_ne_true_of_false (bool_false_of_ne_true hd) hcon.2
      · rw [if_neg hc]
        refine List.chain'_cons'.mpr ⟨?_, ih⟩
        intro y _
        intro hcon
        exact hc hcon.1

theorem collapse_fix :
    ∀ (cs : List Char), (∀ c ∈ cs, isWordChar c = true ∨ c = ' ') →
      List.Chain' spacedApart cs → collapseWs cs = cs := by
  intro cs
  induction cs with
  | nil =>
    intro _ _
    rfl
  | cons c cs ih =>
    intro hmem hch
    cases cs with
    | nil =>
      rw [collapseWs]
      rcases hmem c (List.mem_cons_self c []) with hw | he
      · rw [if_neg (bool_ne_true_of_false (word_not_space c hw))]
      · subst he
        rw [if_pos space_char_is_space]
    | cons d cs' =>
      rw [collapseWs]
      have hch' := (List.chain'_cons'.mp hch).2
      have hmem' : ∀ x ∈ d :: cs', isWordChar x = true ∨ x = ' ' :=
        fun x hx => hmem x (List.mem_cons_of_mem c hx)
      rcases hmem c (List.mem_cons_self _ _) with hw | he
      · rw [if_neg (bool_ne_true_of_false (word_not_space c hw))]
        rw [ih hmem' hch']
      · subst he
        rw [if_pos space_char_is_space]
        have hrel := (List.chain'_cons'.mp hch).1 d (by rfl)
        have hd : isSpaceChar d = false := by
          by_cases hds : isSpaceChar d = true
          · exact absurd ⟨space_char_is_space, hds⟩ hrel
          · exact bool_false_of_ne_true hds
        rw [if_neg (bool_ne_true_of_false hd)]
        rw [ih hmem' hch']

theorem rstrip_front_of_self : ∀ (cs : List Char), rstripChars cs <+: cs := by
  intro cs
  induction cs with
  | nil => exact ⟨[], rfl⟩
  | cons c cs ih =>
    rw [rstripChars]
    cases hr : rstripChars cs with
    | nil =>
      rw [rstripAux]
      by_cases hc : isSpaceChar c = true
      · rw [if_pos hc]
        exact ⟨c :: cs, rfl⟩
      · rw [if_neg hc]
        exact ⟨cs, rfl⟩
    | cons d ds =>
      rw [rstripAux]
      rcases (hr ▸ ih) with ⟨t, ht⟩
      exact ⟨t, by rw [List.cons_append, ht]⟩

theorem rstrip_idem : ∀ (cs : List Char), rstripChars (rstripChars cs) = rstripChars cs := by
  intro cs
  induction cs with
  | nil => rfl
  | cons c cs ih =>
    rw [rstripChars]
    cases hr : rstripChars cs with
    | nil =>
      rw [rstripAux]
      by_cases hc : isSpaceChar c = true
      · rw [if_pos hc]
        rfl
      · rw [if_neg hc]
        rw [rstripChars, rstripChars, rstripAux, if_neg hc]
    | cons d ds =>
      rw [rstripAux]
      have hids : rstripChars (d :: ds) = d :: ds := by
        rw [← hr]
        exact hr ▸ ih
      rw [rstripChars, hids, rstripAux]

theorem dropWhile_head_false :
    ∀ (l : List Char) (c : Char) (rest : List Char),
      l.dropWhile isSpaceChar = c :: rest → isSpaceChar c = false := by
  intro l
  induction l with
  | nil =>
    intro c rest h
    exact absurd h (by simp)
  | cons a as ih =>
    intro c rest h
    rw [List.dropWhile_cons] at h
    by_cases ha : isSpaceChar a = true
    · rw [if_pos (by simp [ha])] at h
      exact ih c rest h
    · rw [if_neg (by simp [ha])] at h
      have hac : a = c := (List.cons.injEq a as c rest ▸ h).1
      subst hac
      exact bool_false_of_ne_true ha

theorem stripChars_idem (l : List Char) : stripChars (stripChars l) = stripChars l := by
  rw [stripChars, stripChars]
  have hdW : (rstripChars (l.dropWhile isSpaceChar)).dropWhile isSpaceChar =
      rstripChars (l.dropWhile isSpaceChar) := by
    cases hr : rstripChars (l.dropWhile isSpaceChar) with
    | nil => rfl
    | cons c rest =>
      have hpre := rstrip_front_of_self (l.dropWhile isSpaceChar)
      rw [hr] at hpre
      rcases hpre with ⟨t, ht⟩
      have hc : isSpaceChar c = false := by
        apply dropWhile_head_false l c (rest ++ t)
        rw [← ht]
        simp
      rw [List.dropWhile_cons, if_neg (by simp [hc])]
  rw [hdW, rstrip_idem]

theorem map_id_of_mem :
    ∀ (l : List Char) (f : Char → Char), (∀ c ∈ l, f c = c) → l.map f = l := by
  intro l f
  induction l with
  | nil => intro _; rfl
  | cons c cs ih =>
    intro h
    rw [List.map_cons, h c (List.mem_cons_self c cs), ih (fun x hx => h x (List.mem_cons_of_mem c hx))]

/- ===================== claim C1, amended ===================== -/

/-- C1 amended: normalization is idempotent on every string all of whose
characters are word characters (letters, digits, underscore) or whitespace.
It is not idempotent in general: deleting the other characters can create a
fresh legal-entity suffix token, as in the counterexample l.t.d, whose
normalization ltd normalizes further to the empty string. -/
theorem normalize_idempotent_word_space (s : String)
    (h : ∀ c ∈ s.data, isWordChar c = true ∨ isSpaceChar c = true) :
    normalize_text (normalize_text s) = normalize_text s := by
  by_cases hs : s = ""
  · subst hs
    rfl
  · have hn : normalize_text s =
        String.mk (stripChars (collapseWs (stripSpecials (removeSuffixTokens (lowerStr s.data))))) := by
      rw [normalize_text, if_neg hs]
    rw [hn]
    by_cases hout :
        String.mk (stripChars (collapseWs (stripSpecials (removeSuffixTokens (lowerStr s.data))))) = ""
    · rw [hout]
      rfl
    · rw [normalize_text, if_neg hout]
      -- abbreviations: L, the lowered text; its suffix-stripped form; and the
      -- normalized character list N
      have hWSL : ∀ c ∈ lowerStr s.data, isWordChar c = true ∨ isSpaceChar c = true := by
        intro c hc
        rcases List.mem_map.mp hc with ⟨y, hy, hyc⟩
        exact hyc ▸ toLower_word_or_space y (h y hy)
      have hWSM : ∀ c ∈ removeSuffixTokens (lowerStr s.data),
          isWordChar c = true ∨ isSpaceChar c = true := by
        intro c hc
        rw [removeSuffixTokens] at hc
        rcases mem_remSufGo (lowerStr s.data) [] c hc with h1 | h2
        · exact hWSL c h1
        · exact absurd h2 (List.not_mem_nil c)
      have hM : stripSpecials (removeSuffixTokens (lowerStr s.data)) =
          removeSuffixTokens (lowerStr s.data) := by
        rw [stripSpecials, List.filter_eq_self]
        intro c hc
        rcases hWSM c hc with hw | hsp
        · simp [hw]
        · simp [hsp]
      -- the normalized list and its basic membership facts
      have hmemY : ∀ c ∈ stripChars (collapseWs (stripSpecials (removeSuffixTokens (lowerStr s.data)))),
          c ∈ collapseWs (stripSpecials (removeSuffixTokens (lowerStr s.data))) := by
        intro c hc
        rw [stripChars] at hc
        exact (List.dropWhile_suffix isSpaceChar).subset ((rstrip_front_of_self _).subset hc)
      have hmemN : ∀ c ∈ stripChars (collapseWs (stripSpecials (removeSuffixTokens (lowerStr s.data)))),
          (c ∈ removeSuffixTokens (lowerStr s.data) ∧ isSpaceChar c = false) ∨ c = ' ' := by
        intro c hc
        have := mem_collapse _ c (hmemY c hc)
        rw [hM] at this
        exact this
      -- F1: the normalized list is already lowercase
      have hF1 : lowerStr (stripChars (collapseWs (stripSpecials (removeSuffixTokens (lowerStr s.data))))) =
          stripChars (collapseWs (stripSpecials (removeSuffixTokens (lowerStr s.data)))) := by
        rw [lowerStr]
        apply map_id_of_mem
        intro c hc
        rcases hmemN c hc with ⟨hm, _⟩ | he
        · rw [removeSuffixTokens] at hm
          rcases mem_remSufGo (lowerStr s.data) [] c hm with h1 | h2
          · rcases List.mem_map.mp h1 with ⟨y, _, hyc⟩
            rw [← hyc]
            exact toLower_idem y
          · exact absurd h2 (List.not_mem_nil c)
        · rw [he]
          exact toLower_space (' ') space_char_is_space
      -- F2: no suffix token survives as a maximal run, so suffix removal fixes N
      have hclean : ∀ r ∈ wordRuns (stripChars (collapseWs (stripSpecials (removeSuffixTokens (lowerStr s.data))))),
          suffixTokens.contains r = false := by
        intro r hr
        rw [hM, wordRuns_strip_collapse, removeSuffixTokens] at hr
        exact remSufGo_clean (lowerStr s.data) []
          (fun x hx => absurd hx (List.not_mem_nil x)) r hr
      have hF2 : removeSuffixTokens (stripChars (collapseWs (stripSpecials (removeSuffixTokens (lowerStr s.data))))) =
          stripChars (collapseWs (stripSpecials (removeSuffixTokens (lowerStr s.data)))) := by
        rw [removeSuffixTokens, remSufGo_fix _ [] (fun r hr => hclean r hr)]
        rfl
      -- F3: every character of N is a word or whitespace character
      have hF3 : stripSpecials (stripChars (collapseWs (stripSpecials (removeSuffixTokens (lowerStr s.data))))) =
          stripChars (collapseWs (stripSpecials (removeSuffixTokens (lowerStr s.data)))) := by
        rw [stripSpecials, List.filter_eq_self]
        intro c hc
        rcases hmemN c hc with ⟨hm, _⟩ | he
        · rcases hWSM c hm with hw | hsp
          · simp [hw]
          · simp [hsp]
        · rw [he]
          simp [space_char_is_space]
      -- F4: whitespace in N is already collapsed
      have hF4 : collapseWs (stripChars (collapseWs (stripSpecials (removeSuffixTokens (lowerStr s.data))))) =
          stripChars (collapseWs (stripSpecials (removeSuffixTokens (lowerStr s.data)))) := by
        apply collapse_fix
        · intro c hc
          rcases hmemN c hc with ⟨hm, hsp⟩ | he
          · rcases hWSM c hm with hw | hs2
            · exact Or.inl hw
            · rw [hsp] at hs2
              exact absurd hs2 (by simp)
          · exact Or.inr he
        · rw [stripChars]
          have hch := (collapse_chain (stripSpecials (removeSuffixTokens (lowerStr s.data)))).suffix
            (List.dropWhile_suffix isSpaceChar)
          rcases rstrip_front_of_self ((collapseWs (stripSpecials (removeSuffixTokens (lowerStr s.data)))).dropWhile isSpaceChar) with ⟨t, ht⟩
          rw [← ht] at hch
          exact (List.chain'_append.mp hch).1
      -- F5: N is already stripped
      have hF5 : stripChars (stripChars (collapseWs (stripSpecials (removeSuffixTokens (lowerStr s.data))))) =
          stripChars (collapseWs (stripSpecials (removeSuffixTokens (lowerStr s.data)))) :=
        stripChars_idem _
      show String.mk (stripChars (collapseWs (stripSpecials (removeSuffixTokens
          (lowerStr (stripChars (collapseWs (stripSpecials (removeSuffixTokens (lowerStr s.data)))))))))) =
        String.mk (stripChars (collapseWs (stripSpecials (removeSuffixTokens (lowerStr s.data)))))
      rw [hF1, hF2, hF3, hF4, hF5]

/-- C1 witness: idempotence at a concrete string of word characters and
whitespace. -/
theorem normalize_idempotent_word_space_witness :
    normalize_text (normalize_text ("Acme Wines 123")) = normalize_text ("Acme Wines 123") :=
  normalize_idempotent_word_space ("Acme Wines 123") (by decide)

/-- C5 witness: the amended theorem applied to the concrete match attributed
to an empty-name reference record. -/
theorem empty_name_ref_no_name_flag_witness :
    (⟨2, ⟨false, true, false, true, false, false, false⟩,
      ⟨"Acme", "a@b.com", "", "b.com", ""⟩,
      ⟨"", "a@b.com", "", "b.com", ""⟩⟩ : MatchResult).flags.name = false :=
  empty_name_ref_no_name_flag [⟨"Acme", "a@b.com", ""⟩] [⟨"", "a@b.com", ""⟩]
    ⟨2, ⟨false, true, false, true, false, false, false⟩,
      ⟨"Acme", "a@b.com", "", "b.com", ""⟩,
      ⟨"", "a@b.com", "", "b.com", ""⟩⟩ (by decide) (by decide)
